import Mathlib

/-!
Verification of the Test Selection Engine of `unified_pr_test_selector.py`
(stolostron/acm-qe-assistant).

The Python source is embedded shallowly: Python dicts become structures,
Python sets become duplicate-free lists built by insert-if-absent,
Python string operations (`endswith`, substring `in`, lexicographic `<`)
are re-implemented over `List Char`, and the regex engine used by the
change classifier is abstracted as an oracle `search : String → String →
Bool` (pattern, filename) since none of the verified properties depend on
regex semantics.  Every definition mirrors one function of the source,
named as closely as Lean allows.
-/

namespace ACMQE

/-- Lexicographic code-point comparison of char lists: models Python's
string `<=` used by `sorted`. -/
def charListLe : List Char → List Char → Bool
  | [], _ => true
  | _ :: _, [] => false
  | a :: as, b :: bs =>
    if a.toNat < b.toNat then true
    else if b.toNat < a.toNat then false
    else charListLe as bs

/-- Python string `<=` (code-point lexicographic). -/
def strLe (x y : String) : Bool := charListLe x.data y.data

/-- Does `l` start with `pre`? -/
def startsWithList : List Char → List Char → Bool
  | [], _ => true
  | _ :: _, [] => false
  | a :: as, b :: bs => a == b && startsWithList as bs

/-- Does `hay` contain `needle` as a contiguous sublist?  Models Python's
substring test `needle in hay`. -/
def hasSubList (needle : List Char) : List Char → Bool
  | [] => startsWithList needle []
  | c :: rest => startsWithList needle (c :: rest) || hasSubList needle rest

/-- Python `needle in hay` on strings. -/
def hasSubstring (needle hay : String) : Bool := hasSubList needle.data hay.data

/-- Python `s.endswith(suf)`. -/
def strEndsWith (s suf : String) : Bool :=
  startsWithList suf.data.reverse s.data.reverse

/-- Stable insertion of `a` into a list sorted by the boolean comparison
`le`: `a` goes in front of the first element `b` with `le a b`. -/
def insertLe {α : Type} (le : α → α → Bool) (a : α) : List α → List α
  | [] => [a]
  | b :: l => if le a b then a :: b :: l else b :: insertLe le a l

/-- Stable insertion sort by the boolean comparison `le`: models Python's
`sorted` (which is stable). -/
def sortLe {α : Type} (le : α → α → Bool) : List α → List α
  | [] => []
  | a :: l => insertLe le a (sortLe le l)

/-- Keep the first occurrence of each element: models iterating a Python
set that was filled in this order. -/
def dedupKeepFirst (l : List String) : List String :=
  l.foldl (fun acc x => if x ∈ acc then acc else acc ++ [x]) []

/-- Python `set.update` on insertion-ordered duplicate-free lists. -/
def setUnion (a b : List String) : List String :=
  b.foldl (fun acc v => if v ∈ acc then acc else acc ++ [v]) a

/-- One changed file of a pull request, as assembled by
`PRAnalyzer.get_pr_info` (keys `filename`, `status`, `additions`,
`deletions`). -/
structure ChangedFile where
  filename : String
  status : String
  additions : Nat
  deletions : Nat
deriving DecidableEq, Repr

/-- One component's entry of `FILE_TO_TAG_MAPPINGS`: the `path_to_tags`
rule table (pattern → tag list) and the `critical_patterns` list. -/
structure RuleSet where
  path_to_tags : List (String × List String)
  critical_patterns : List String
deriving DecidableEq, Repr

/-- The dict returned by `TagBasedSelector.map_files_to_tags`
(keys `tags`, `is_critical`, `is_docs_only`). -/
structure TagResult where
  tags : List String
  isCritical : Bool
  isDocsOnly : Bool
deriving DecidableEq, Repr

/-- `TagBasedSelector.is_docs_only_change`: empty file lists are not
docs-only; otherwise every file must end in `.md` or `.txt` or contain
`docs/` in its path. -/
def isDocsOnlyChange (changed_files : List ChangedFile) : Bool :=
  if changed_files.isEmpty then false
  else changed_files.all (fun f =>
    strEndsWith f.filename ".md" || strEndsWith f.filename ".txt" ||
    hasSubstring "docs/" f.filename)

/-- `TagBasedSelector.is_critical_change`: some changed path matches some
critical pattern (`search` abstracts `re.search`). -/
def isCriticalChange (search : String → String → Bool) (rules : RuleSet)
    (changed_files : List ChangedFile) : Bool :=
  changed_files.any (fun f =>
    rules.critical_patterns.any (fun p => search p f.filename))

/-- The per-file inner loop of `map_files_to_tags`: union the tag sets of
all `path_to_tags` rules whose pattern matches the filename. -/
def fileTags (search : String → String → Bool) (rules : RuleSet)
    (filename : String) : List String :=
  rules.path_to_tags.foldl
    (fun s pt => if search pt.1 filename then setUnion s pt.2 else s) []

/-- `TagBasedSelector.map_files_to_tags`: docs-only short-circuit, per-file
rule matching, and removal of the run-everything tag `e2e`. -/
def mapFilesToTags (search : String → String → Bool) (rules : RuleSet)
    (changed_files : List ChangedFile) : TagResult :=
  let is_docs_only := isDocsOnlyChange changed_files
  let is_critical := isCriticalChange search rules changed_files
  if is_docs_only then ⟨[], false, true⟩
  else
    let matched_tags := changed_files.foldl
      (fun acc f =>
        let file_tags := fileTags search rules f.filename
        if file_tags.isEmpty then acc else setUnion acc file_tags) []
    let matched_tags :=
      if "e2e" ∈ matched_tags then matched_tags.filter (fun t => !(t == "e2e"))
      else matched_tags
    ⟨matched_tags, is_critical, false⟩

lemma setUnion_mem {a b : List String} {x : String} :
    x ∈ setUnion a b ↔ x ∈ a ∨ x ∈ b := by
  unfold setUnion
  induction b generalizing a with
  | nil => simp
  | cons v vs ih =>
    simp only [List.foldl_cons]
    by_cases hv : v ∈ a
    · rw [if_pos hv, ih]
      constructor
      · rintro (h | h)
        · exact Or.inl h
        · exact Or.inr (List.mem_cons_of_mem _ h)
      · rintro (h | h)
        · exact Or.inl h
        · rcases List.mem_cons.mp h with rfl | h
          · exact Or.inl hv
          · exact Or.inr h
    · rw [if_neg hv, ih]
      simp only [List.mem_append, List.mem_singleton, List.mem_cons]
      tauto

/-- C5: for every regex oracle, rule table and changed-file list, the
run-everything tag `e2e` never appears in the tag set returned by
`map_files_to_tags`: it is filtered out before the result is returned. -/
theorem e2e_never_in_matched_tags
    (search : String → String → Bool) (rules : RuleSet)
    (changed_files : List ChangedFile) :
    "e2e" ∉ (mapFilesToTags search rules changed_files).tags := by
  unfold mapFilesToTags
  by_cases hdocs : isDocsOnlyChange changed_files = true
  · simp [hdocs]
  · simp only [Bool.not_eq_true] at hdocs
    simp only [hdocs, Bool.false_eq_true, if_false]
    set m := changed_files.foldl
      (fun acc f =>
        let file_tags := fileTags search rules f.filename
        if file_tags.isEmpty then acc else setUnion acc file_tags) [] with hm
    by_cases he : "e2e" ∈ m
    · simp only [he, if_true]
      intro hmem
      rcases List.mem_filter.mp hmem with ⟨_, hp⟩
      simp at hp
    · rw [if_neg he]
      exact he

/-- C6 (amended) helper: the docs-only predicate of one file. -/
def isDocFile (f : ChangedFile) : Bool :=
  strEndsWith f.filename ".md" || strEndsWith f.filename ".txt" ||
  hasSubstring "docs/" f.filename

/-- C6 counterexample: at the empty changed-file list every file is
(vacuously) documentation-only, yet `map_files_to_tags` reports
`is_docs_only = false`, refuting the claim as stated. -/
theorem docs_only_empty_cex :
    (∀ f ∈ ([] : List ChangedFile), isDocFile f = true) ∧
    (mapFilesToTags (fun _ _ => false) ⟨[], []⟩ []).isDocsOnly = false := by
  constructor
  · intro f hf; cases hf
  · rfl

/-- C6 (amended): for every NON-EMPTY changed-file list whose files all
have a documentation/text extension or live under a docs directory,
`map_files_to_tags` short-circuits: `isDocsOnly = true`, the tag set is
empty and `isCritical` is reported false, regardless of the rule table. -/
theorem docs_only_nonempty_short_circuit
    (search : String → String → Bool) (rules : RuleSet)
    (changed_files : List ChangedFile)
    (hne : changed_files ≠ [])
    (hdocs : ∀ f ∈ changed_files, isDocFile f = true) :
    mapFilesToTags search rules changed_files = ⟨[], false, true⟩ := by
  have hd : isDocsOnlyChange changed_files = true := by
    unfold isDocsOnlyChange
    rw [if_neg (by simpa using hne)]
    rw [List.all_eq_true]
    intro f hf
    exact hdocs f hf
  unfold mapFilesToTags
  simp [hd]

/-- Witness for `docs_only_nonempty_short_circuit` at a concrete one-file
docs-only change. -/
theorem docs_only_nonempty_short_circuit_witness :
    mapFilesToTags (fun _ _ => false) ⟨[], []⟩
      [⟨"README.md", "modified", 1, 0⟩] = ⟨[], false, true⟩ :=
  docs_only_nonempty_short_circuit (fun _ _ => false) ⟨[], []⟩
    [⟨"README.md", "modified", 1, 0⟩] (by decide) (by decide)

/-- One test case as extracted by `TestRepository._extract_tags_from_file`
(keys `name`, `suite`, `file`, `tags`). -/
structure TestInfo where
  name : String
  suite : String
  file : String
  tags : List String
deriving DecidableEq, Repr

/-- A selected test dict as produced by
`TagBasedSelector.select_tests_by_tags`: the test's own fields plus the
added keys `matched_tags`, `match_score` and `priority`. -/
structure SelEntry where
  test : TestInfo
  matchedTags : List String
  matchScore : Nat
  priority : String
deriving DecidableEq, Repr

/-- Lookup in the `tag_to_tests` dict (first matching key). -/
def lookupTag (index : List (String × List TestInfo)) (tag : String) :
    Option (List TestInfo) :=
  match index with
  | [] => none
  | kv :: rest => if kv.1 == tag then some kv.2 else lookupTag rest tag

/-- Loop state of `select_tests_by_tags`: the two buckets and the
`test_names_seen` set. -/
structure SelState where
  must_run : List SelEntry
  should_run : List SelEntry
  seen : List String
deriving DecidableEq, Repr

/-- The in-place update of an already-selected test: append the tag to
`matched_tags` and increment `match_score` by one. -/
def updateEntry (tag : String) (e : SelEntry) : SelEntry :=
  { e with matchedTags := e.matchedTags ++ [tag],
           matchScore := e.matchScore + 1 }

/-- Update the first entry of `l` (a bucket) whose test name is `name`. -/
def updateFirstByName (name tag : String) : List SelEntry → List SelEntry
  | [] => []
  | e :: rest =>
    if e.test.name == name then updateEntry tag e :: rest
    else e :: updateFirstByName name tag rest

/-- Update the first `should_run` entry named `name` and, since its
score after the increment may have reached 2, move it to `must_run`
(the promotion branch of `select_tests_by_tags`).  Returns the new
`(must_run, should_run)` pair. -/
def updateInShould (tag name : String) (must : List SelEntry) :
    List SelEntry → List SelEntry × List SelEntry
  | [] => (must, [])
  | e :: rest =>
    if e.test.name == name then
      let e' := updateEntry tag e
      if 2 ≤ e'.matchScore then
        (must ++ [{ e' with priority := "must_run" }], rest)
      else (must, e' :: rest)
    else
      let p := updateInShould tag name must rest
      (p.1, e :: p.2)

/-- The body of the inner `for test in tests` loop of
`select_tests_by_tags`. -/
def processTest (tags0 : List String) (is_critical : Bool) (tag : String)
    (st : SelState) (test : TestInfo) : SelState :=
  if test.name ∈ st.seen then
    if st.must_run.any (fun e => e.test.name == test.name) then
      { st with must_run := updateFirstByName test.name tag st.must_run }
    else
      let p := updateInShould tag test.name st.must_run st.should_run
      { st with must_run := p.1, should_run := p.2 }
  else
    let st := { st with seen := st.seen ++ [test.name] }
    let base : SelEntry := ⟨test, [tag], 0, ""⟩
    if is_critical then
      { st with must_run :=
          st.must_run ++ [{ base with matchScore := 10, priority := "must_run" }] }
    else if tag ∈ tags0 then
      { st with must_run :=
          st.must_run ++ [{ base with matchScore := 3, priority := "must_run" }] }
    else
      { st with should_run :=
          st.should_run ++ [{ base with matchScore := 1, priority := "should_run" }] }

/-- The body of the outer `for tag in sorted(tags)` loop. -/
def processTag (tags0 : List String) (is_critical : Bool)
    (index : List (String × List TestInfo)) (st : SelState) (tag : String) :
    SelState :=
  match lookupTag index tag with
  | some tests => tests.foldl (processTest tags0 is_critical tag) st
  | none => st

/-- `TagBasedSelector.select_tests_by_tags`: iterate the matched tags in
sorted order, bucketing each indexed test into `must_run` / `should_run`
with the scoring and promotion rules of the source. -/
def selectTestsByTags (tags : List String)
    (index : List (String × List TestInfo)) (is_critical : Bool) : SelState :=
  (sortLe strLe (dedupKeepFirst tags)).foldl
    (processTag tags is_critical index) ⟨[], [], []⟩

lemma mem_insertLe {α : Type} {le : α → α → Bool} {a x : α} {l : List α} :
    x ∈ insertLe le a l ↔ x = a ∨ x ∈ l := by
  induction l with
  | nil => simp [insertLe]
  | cons b t ih =>
    unfold insertLe
    by_cases h : le a b = true
    · rw [if_pos h]
      simp
    · rw [if_neg h]
      simp only [List.mem_cons, ih]
      tauto

lemma mem_sortLe {α : Type} {le : α → α → Bool} {x : α} {l : List α} :
    x ∈ sortLe le l ↔ x ∈ l := by
  induction l with
  | nil => simp [sortLe]
  | cons a t ih =>
    unfold sortLe
    rw [mem_insertLe, ih]
    simp

lemma mem_dedupKeepFirst_aux {l acc : List String} {x : String} :
    x ∈ l.foldl (fun acc x => if x ∈ acc then acc else acc ++ [x]) acc ↔
      x ∈ acc ∨ x ∈ l := by
  induction l generalizing acc with
  | nil => simp
  | cons a t ih =>
    simp only [List.foldl_cons]
    by_cases ha : a ∈ acc
    · rw [if_pos ha, ih]
      constructor
      · rintro (h | h)
        · exact Or.inl h
        · exact Or.inr (List.mem_cons_of_mem _ h)
      · rintro (h | h)
        · exact Or.inl h
        · rcases List.mem_cons.mp h with rfl | h
          · exact Or.inl ha
          · exact Or.inr h
    · rw [if_neg ha, ih]
      simp only [List.mem_append, List.mem_singleton, List.mem_cons]
      tauto

lemma mem_dedupKeepFirst {l : List String} {x : String} :
    x ∈ dedupKeepFirst l ↔ x ∈ l := by
  unfold dedupKeepFirst
  rw [mem_dedupKeepFirst_aux]
  simp

/-- The `should_run = []` invariant is preserved by one test step, as long
as the current tag is a member of the originally passed tag set (which it
always is, being drawn from `sorted(tags)`). -/
lemma processTest_should_nil {tags0 : List String} {is_critical : Bool}
    {tag : String} {st : SelState} {test : TestInfo}
    (htag : tag ∈ tags0) (h : st.should_run = []) :
    (processTest tags0 is_critical tag st test).should_run = [] := by
  unfold processTest
  by_cases hseen : test.name ∈ st.seen
  · rw [if_pos hseen]
    by_cases hmust : st.must_run.any (fun e => e.test.name == test.name) = true
    · simp [hmust, h]
    · simp only [hmust, Bool.false_eq_true, if_false]
      rw [h]
      simp [updateInShould]
  · rw [if_neg hseen]
    by_cases hcrit : is_critical = true
    · simp [hcrit, h]
    · simp only [hcrit, Bool.false_eq_true, if_false]
      rw [if_pos htag]
      simpa using h

lemma foldTests_should_nil {tags0 : List String} {is_critical : Bool}
    {tag : String} (htag : tag ∈ tags0) :
    ∀ (tests : List TestInfo) (st : SelState), st.should_run = [] →
      (tests.foldl (processTest tags0 is_critical tag) st).should_run = [] := by
  intro tests
  induction tests with
  | nil => intro st h; simpa using h
  | cons t ts ih =>
    intro st h
    simp only [List.foldl_cons]
    exact ih _ (processTest_should_nil htag h)

lemma foldTags_should_nil {tags0 : List String} {is_critical : Bool}
    {index : List (String × List TestInfo)} :
    ∀ (l : List String) (st : SelState), (∀ t ∈ l, t ∈ tags0) →
      st.should_run = [] →
      (l.foldl (processTag tags0 is_critical index) st).should_run = [] := by
  intro l
  induction l with
  | nil => intro st _ h; simpa using h
  | cons a t ih =>
    intro st hsub h
    simp only [List.foldl_cons]
    refine ih _ (fun x hx => hsub x (List.mem_cons_of_mem _ hx)) ?_
    unfold processTag
    cases hl : lookupTag index a with
    | none => simpa using h
    | some tests =>
      exact foldTests_should_nil (hsub a (List.mem_cons_self a t)) tests st h

/-- C4: for every tag set, tag index and criticality flag,
`select_tests_by_tags` returns an empty `should_run` bucket: the branch
appending to `should_run` (and hence the promotion step) is unreachable,
because the loop variable is always a member of the passed tag set. -/
theorem should_run_always_empty (tags : List String)
    (index : List (String × List TestInfo)) (is_critical : Bool) :
    (selectTestsByTags tags index is_critical).should_run = [] := by
  unfold selectTestsByTags
  refine foldTags_should_nil _ _ (fun t ht => ?_) rfl
  exact mem_dedupKeepFirst.mp (mem_sortLe.mp ht)

/-- The invariant of the critical path: `should_run` stays empty and every
`must_run` entry has priority `must_run` and score `9 + |matched_tags|`
(it is created with one matched tag and score 10, and each later matched
tag increments the score by one). -/
def CriticalInv (st : SelState) : Prop :=
  st.should_run = [] ∧
  ∀ e ∈ st.must_run, e.priority = "must_run" ∧
    e.matchScore = 9 + e.matchedTags.length ∧ 1 ≤ e.matchedTags.length

lemma mem_updateFirstByName {name tag : String} {l : List SelEntry}
    {e' : SelEntry} (h : e' ∈ updateFirstByName name tag l) :
    ∃ e ∈ l, e' = e ∨ e' = updateEntry tag e := by
  induction l with
  | nil => cases h
  | cons e rest ih =>
    unfold updateFirstByName at h
    by_cases hn : (e.test.name == name) = true
    · rw [if_pos hn] at h
      rcases List.mem_cons.mp h with rfl | hmem
      · exact ⟨e, List.mem_cons_self _ _, Or.inr rfl⟩
      · exact ⟨e', List.mem_cons_of_mem _ hmem, Or.inl rfl⟩
    · rw [if_neg hn] at h
      rcases List.mem_cons.mp h with rfl | hmem
      · exact ⟨e', List.mem_cons_self _ _, Or.inl rfl⟩
      · rcases ih hmem with ⟨e0, he0, hor⟩
        exact ⟨e0, List.mem_cons_of_mem _ he0, hor⟩

lemma processTest_critical_inv {tags0 : List String} {tag : String}
    {st : SelState} {test : TestInfo} (h : CriticalInv st) :
    CriticalInv (processTest tags0 true tag st test) := by
  obtain ⟨hs, hm⟩ := h
  unfold processTest
  by_cases hseen : test.name ∈ st.seen
  · rw [if_pos hseen]
    by_cases hmust : st.must_run.any (fun e => e.test.name == test.name) = true
    · simp only [hmust, if_true]
      refine ⟨hs, ?_⟩
      intro e' he'
      rcases mem_updateFirstByName he' with ⟨e, he, hor⟩
      rcases hor with heq | heq
      · subst heq
        exact hm _ he
      · subst heq
        obtain ⟨hp, hsc, hlen⟩ := hm _ he
        refine ⟨hp, ?_, ?_⟩
        · simp only [updateEntry, List.length_append, List.length_singleton]
          omega
        · simp only [updateEntry, List.length_append, List.length_singleton]
          omega
    · simp only [hmust, Bool.false_eq_true, if_false]
      rw [hs]
      exact ⟨by simp [updateInShould], by simpa [updateInShould] using hm⟩
  · rw [if_neg hseen]
    simp only [if_true]
    refine ⟨hs, ?_⟩
    intro e' he'
    rcases List.mem_append.mp he' with hmem | hmem
    · exact hm e' hmem
    · rcases List.mem_singleton.mp hmem with rfl
      refine ⟨rfl, by simp, by simp⟩

lemma foldTests_critical_inv {tags0 : List String} {tag : String}
    (tests : List TestInfo) :
    ∀ st : SelState, CriticalInv st →
      CriticalInv (tests.foldl (processTest tags0 true tag) st) := by
  induction tests with
  | nil => intro st h; simpa using h
  | cons t ts ih =>
    intro st h
    simp only [List.foldl_cons]
    exact ih _ (processTest_critical_inv h)

lemma foldTags_critical_inv {tags0 : List String}
    {index : List (String × List TestInfo)} (l : List String) :
    ∀ st : SelState, CriticalInv st →
      CriticalInv (l.foldl (processTag tags0 true index) st) := by
  induction l with
  | nil => intro st h; simpa using h
  | cons a t ih =>
    intro st h
    simp only [List.foldl_cons]
    refine ih _ ?_
    unfold processTag
    cases hl : lookupTag index a with
    | none => simpa using h
    | some tests => exact foldTests_critical_inv tests st h

/-- C2 counterexample: with matched tags `a`, `b` both indexing the same
test and `is_critical = true`, the selected entry ends with score 11, not
10 — the claim "score exactly 10 regardless of how many tags each
individually matched" is false on the code. -/
theorem critical_score_ten_cex :
    ¬ (∀ e ∈ (selectTestsByTags ["a", "b"]
        [("a", [⟨"RHACM4K-1: t", "s", "f", ["a", "b"]⟩]),
         ("b", [⟨"RHACM4K-1: t", "s", "f", ["a", "b"]⟩])] true).must_run,
        e.priority = "must_run" ∧ e.matchScore = 10) := by
  decide

/-- C2 (amended): with `is_critical = true` and a non-empty tag set, every
selected entry is in `must_run` with priority `must_run`, and its score is
`10` plus one for each additional matched tag beyond the first
(`score = 9 + |matched_tags|`, so exactly 10 only when the test matched
exactly one of the tags); `should_run` is empty. -/
theorem critical_selection_must_run_score (tags : List String)
    (index : List (String × List TestInfo)) (hne : tags ≠ []) :
    (selectTestsByTags tags index true).should_run = [] ∧
    ∀ e ∈ (selectTestsByTags tags index true).must_run,
      e.priority = "must_run" ∧
      e.matchScore = 9 + e.matchedTags.length ∧ 1 ≤ e.matchedTags.length := by
  have h : CriticalInv (selectTestsByTags tags index true) := by
    unfold selectTestsByTags
    refine foldTags_critical_inv _ _ ?_
    exact ⟨rfl, by intro e he; cases he⟩
  exact h

/-- Witness for `critical_selection_must_run_score` at a concrete
one-tag/one-test input. -/
theorem critical_selection_must_run_score_witness :
    (selectTestsByTags ["a"] [("a", [⟨"RHACM4K-1: t", "s", "f", ["a"]⟩])]
        true).should_run = [] ∧
    ∀ e ∈ (selectTestsByTags ["a"]
        [("a", [⟨"RHACM4K-1: t", "s", "f", ["a"]⟩])] true).must_run,
      e.priority = "must_run" ∧
      e.matchScore = 9 + e.matchedTags.length ∧ 1 ≤ e.matchedTags.length :=
  critical_selection_must_run_score ["a"]
    [("a", [⟨"RHACM4K-1: t", "s", "f", ["a"]⟩])] (by decide)

/-- One change's selection as fed to the batch merge loop of
`UnifiedPRTestSelector.run_multiple_prs` (the `selected_tests` dict of one
PR). -/
structure PRSelection where
  must_run : List SelEntry
  should_run : List SelEntry
deriving DecidableEq, Repr

/-- The accumulated state of the batch merge loop: `test_names_seen`,
`all_must_run` and `all_should_run`. -/
structure MergeState where
  seen : List String
  all_must : List SelEntry
  all_should : List SelEntry
deriving DecidableEq, Repr

/-- One `must_run` entry of the current PR: append to the global
`must_run` bucket unless the name was already seen. -/
def mergeMustStep (st : MergeState) (t : SelEntry) : MergeState :=
  if t.test.name ∈ st.seen then st
  else { st with seen := st.seen ++ [t.test.name],
                 all_must := st.all_must ++ [t] }

/-- One `should_run` entry of the current PR: append to the global
`should_run` bucket unless the name was already seen. -/
def mergeShouldStep (st : MergeState) (t : SelEntry) : MergeState :=
  if t.test.name ∈ st.seen then st
  else { st with seen := st.seen ++ [t.test.name],
                 all_should := st.all_should ++ [t] }

/-- Merging one PR's selection: its `must_run` entries first, then its
`should_run` entries (the per-PR order of `run_multiple_prs`). -/
def mergeStep (st : MergeState) (sel : PRSelection) : MergeState :=
  (sel.should_run.foldl mergeShouldStep (sel.must_run.foldl mergeMustStep st))

/-- The whole batch merge over the PRs in input order. -/
def mergeSelections (sels : List PRSelection) : MergeState :=
  sels.foldl mergeStep ⟨[], [], []⟩

/-- Does a bucket contain an entry for this test name? -/
def bucketHas (l : List SelEntry) (name : String) : Prop :=
  ∃ e ∈ l, e.test.name = name

instance (l : List SelEntry) (name : String) : Decidable (bucketHas l name) := by
  unfold bucketHas
  infer_instance

lemma seen_mono_must {st : MergeState} {t : SelEntry} {n : String}
    (h : n ∈ st.seen) : n ∈ (mergeMustStep st t).seen := by
  unfold mergeMustStep
  split
  · exact h
  · exact List.mem_append.mpr (Or.inl h)

lemma seen_mono_should {st : MergeState} {t : SelEntry} {n : String}
    (h : n ∈ st.seen) : n ∈ (mergeShouldStep st t).seen := by
  unfold mergeShouldStep
  split
  · exact h
  · exact List.mem_append.mpr (Or.inl h)

lemma must_mono_must {st : MergeState} {t : SelEntry} {n : String}
    (h : bucketHas st.all_must n) : bucketHas (mergeMustStep st t).all_must n := by
  unfold mergeMustStep
  split
  · exact h
  · rcases h with ⟨e, he, hn⟩
    exact ⟨e, List.mem_append.mpr (Or.inl he), hn⟩

lemma must_mono_should {st : MergeState} {t : SelEntry} {n : String}
    (h : bucketHas st.all_must n) : bucketHas (mergeShouldStep st t).all_must n :=
  by
  unfold mergeShouldStep
  split
  · exact h
  · exact h

/-- The frozen invariant: once a name is seen and sits in the global
`must_run` bucket but not in `should_run`, every further merge step keeps
it that way. -/
def FrozenMust (n : String) (st : MergeState) : Prop :=
  n ∈ st.seen ∧ bucketHas st.all_must n ∧ ¬ bucketHas st.all_should n

lemma frozen_must_step {n : String} {st : MergeState} {t : SelEntry}
    (h : FrozenMust n st) : FrozenMust n (mergeMustStep st t) := by
  obtain ⟨hseen, hmust, hsh⟩ := h
  refine ⟨seen_mono_must hseen, must_mono_must hmust, ?_⟩
  unfold mergeMustStep
  split
  · exact hsh
  · exact hsh

lemma frozen_should_step {n : String} {st : MergeState} {t : SelEntry}
    (h : FrozenMust n st) : FrozenMust n (mergeShouldStep st t) := by
  obtain ⟨hseen, hmust, hsh⟩ := h
  refine ⟨seen_mono_should hseen, must_mono_should hmust, ?_⟩
  unfold mergeShouldStep
  by_cases ht : t.test.name ∈ st.seen
  · rw [if_pos ht]
    exact hsh
  · rw [if_neg ht]
    rintro ⟨e, he, hn⟩
    rcases List.mem_append.mp he with hmem | hmem
    · exact hsh ⟨e, hmem, hn⟩
    · rcases List.mem_singleton.mp hmem with rfl
      exact ht (hn ▸ hseen)

lemma frozen_fold_must {n : String} {l : List SelEntry} :
    ∀ {st : MergeState}, FrozenMust n st →
      FrozenMust n (l.foldl mergeMustStep st) := by
  induction l with
  | nil => intro st h; simpa using h
  | cons t ts ih =>
    intro st h
    simp only [List.foldl_cons]
    exact ih (frozen_must_step h)

lemma frozen_fold_should {n : String} {l : List SelEntry} :
    ∀ {st : MergeState}, FrozenMust n st →
      FrozenMust n (l.foldl mergeShouldStep st) := by
  induction l with
  | nil => intro st h; simpa using h
  | cons t ts ih =>
    intro st h
    simp only [List.foldl_cons]
    exact ih (frozen_should_step h)

lemma frozen_mergeStep {n : String} {st : MergeState} {sel : PRSelection}
    (h : FrozenMust n st) : FrozenMust n (mergeStep st sel) :=
  frozen_fold_should (frozen_fold_must h)

lemma frozen_fold_sels {n : String} {sels : List PRSelection} :
    ∀ {st : MergeState}, FrozenMust n st →
      FrozenMust n (sels.foldl mergeStep st) := by
  induction sels with
  | nil => intro st h; simpa using h
  | cons s ss ih =>
    intro st h
    simp only [List.foldl_cons]
    exact ih (frozen_mergeStep h)

/-- The pre-phase invariant: if `n` is already seen it is in the global
`must_run` bucket, and it is not in the global `should_run` bucket. -/
def SafeState (n : String) (st : MergeState) : Prop :=
  (n ∈ st.seen → bucketHas st.all_must n) ∧ ¬ bucketHas st.all_should n

lemma safe_must_step {n : String} {st : MergeState} {t : SelEntry}
    (h : SafeState n st) : SafeState n (mergeMustStep st t) := by
  obtain ⟨hseen, hsh⟩ := h
  constructor
  · intro hmem
    unfold mergeMustStep at hmem ⊢
    by_cases ht : t.test.name ∈ st.seen
    · rw [if_pos ht] at hmem ⊢
      exact hseen hmem
    · rw [if_neg ht] at hmem ⊢
      rcases List.mem_append.mp hmem with hmem' | hmem'
      · rcases hseen hmem' with ⟨e, he, hn⟩
        exact ⟨e, List.mem_append.mpr (Or.inl he), hn⟩
      · rcases List.mem_singleton.mp hmem' with rfl
        exact ⟨t, List.mem_append.mpr (Or.inr (List.mem_singleton.mpr rfl)), rfl⟩
  · unfold mergeMustStep
    split
    · exact hsh
    · exact hsh

lemma safe_should_step {n : String} {st : MergeState} {t : SelEntry}
    (hname : t.test.name ≠ n) (h : SafeState n st) :
    SafeState n (mergeShouldStep st t) := by
  obtain ⟨hseen, hsh⟩ := h
  constructor
  · intro hmem
    unfold mergeShouldStep at hmem ⊢
    by_cases ht : t.test.name ∈ st.seen
    · rw [if_pos ht] at hmem ⊢
      exact hseen hmem
    · rw [if_neg ht] at hmem ⊢
      rcases List.mem_append.mp hmem with hmem' | hmem'
      · exact hseen hmem'
      · rcases List.mem_singleton.mp hmem' with rfl
        exact absurd rfl hname
  · unfold mergeShouldStep
    by_cases ht : t.test.name ∈ st.seen
    · rw [if_pos ht]
      exact hsh
    · rw [if_neg ht]
      rintro ⟨e, he, hn⟩
      rcases List.mem_append.mp he with hmem | hmem
      · exact hsh ⟨e, hmem, hn⟩
      · rcases List.mem_singleton.mp hmem with rfl
        exact hname hn

lemma safe_fold_must {n : String} {l : List SelEntry} :
    ∀ {st : MergeState}, SafeState n st →
      SafeState n (l.foldl mergeMustStep st) := by
  induction l with
  | nil => intro st h; simpa using h
  | cons t ts ih =>
    intro st h
    simp only [List.foldl_cons]
    exact ih (safe_must_step h)

lemma safe_fold_should {n : String} {l : List SelEntry}
    (hnames : ∀ t ∈ l, t.test.name ≠ n) :
    ∀ {st : MergeState}, SafeState n st →
      SafeState n (l.foldl mergeShouldStep st) := by
  induction l with
  | nil => intro st h; simpa using h
  | cons t ts ih =>
    intro st h
    simp only [List.foldl_cons]
    exact ih (fun t' ht' => hnames t' (List.mem_cons_of_mem _ ht'))
      (safe_should_step (hnames t (List.mem_cons_self t ts)) h)

lemma safe_mergeStep {n : String} {st : MergeState} {sel : PRSelection}
    (hnames : ¬ bucketHas sel.should_run n) (h : SafeState n st) :
    SafeState n (mergeStep st sel) := by
  refine safe_fold_should ?_ (safe_fold_must h)
  intro t ht hn
  exact hnames ⟨t, ht, hn⟩

lemma safe_fold_sels {n : String} {sels : List PRSelection}
    (hnames : ∀ s ∈ sels, ¬ bucketHas s.should_run n) :
    ∀ {st : MergeState}, SafeState n st →
      SafeState n (sels.foldl mergeStep st) := by
  induction sels with
  | nil => intro st h; simpa using h
  | cons s ss ih =>
    intro st h
    simp only [List.foldl_cons]
    exact ih (fun s' hs' => hnames s' (List.mem_cons_of_mem _ hs'))
      (safe_mergeStep (hnames s (List.mem_cons_self s ss)) h)

/-- Folding the `must_run` bucket of a selection that contains an entry
named `n` turns a safe state into a frozen state: `n` ends up seen and in
the global `must_run` bucket. -/
lemma safe_to_frozen_fold_must {n : String} {l : List SelEntry} :
    ∀ {st : MergeState}, SafeState n st → bucketHas l n →
      FrozenMust n (l.foldl mergeMustStep st) := by
  induction l with
  | nil =>
    intro st _ habs
    rcases habs with ⟨e, he, _⟩
    cases he
  | cons t ts ih =>
    intro st hsafe hhas
    simp only [List.foldl_cons]
    by_cases hn : t.test.name = n
    · have hfrozen : FrozenMust n (mergeMustStep st t) := by
        unfold mergeMustStep
        by_cases ht : t.test.name ∈ st.seen
        · rw [if_pos ht]
          exact ⟨hn ▸ ht, hsafe.1 (hn ▸ ht), hsafe.2⟩
        · rw [if_neg ht]
          refine ⟨?_, ?_, hsafe.2⟩
          · exact List.mem_append.mpr (Or.inr (List.mem_singleton.mpr hn.symm))
          · exact ⟨t, List.mem_append.mpr (Or.inr (List.mem_singleton.mpr rfl)), hn⟩
      exact frozen_fold_must hfrozen
    · rcases hhas with ⟨e, he, hen⟩
      rcases List.mem_cons.mp he with rfl | hmem
      · exact absurd hen hn
      · exact ih (safe_must_step hsafe) ⟨e, hmem, hen⟩

/-- C3 counterexample: an earlier change's `should_run` entry preempts a
later change's `must_run` entry for the same test name, so a name that
appears in a change's `must_run` bucket CAN appear in the merged
`should_run` bucket — `must_run` entries are not processed globally before
`should_run` entries. -/
theorem batch_merge_no_downgrade_cex :
    bucketHas
      (mergeSelections
        [⟨[], [⟨⟨"RHACM4K-100: t", "s", "f", ["a"]⟩, ["a"], 1, "should_run"⟩]⟩,
         ⟨[⟨⟨"RHACM4K-100: t", "s", "f", ["a"]⟩, ["a"], 3, "must_run"⟩], []⟩]).all_should
      "RHACM4K-100: t" ∧
    bucketHas
      [(⟨⟨"RHACM4K-100: t", "s", "f", ["a"]⟩, ["a"], 3, "must_run"⟩ : SelEntry)]
      "RHACM4K-100: t" := by
  constructor
  · decide
  · decide

/-- C3 (amended): the merge processes each change's `must_run` bucket
before its `should_run` bucket, in change order, with first-occurrence-
wins per test name.  Hence a test name that appears in some change's
`must_run` bucket and in no EARLIER change's `should_run` bucket ends up
in the merged `must_run` bucket and never in the merged `should_run`
bucket.  (A later change's `must_run` entry can however be preempted by an
earlier change's `should_run` entry, as the counterexample shows.) -/
theorem batch_merge_first_bucket_wins (pre post : List PRSelection)
    (S : PRSelection) (n : String)
    (hmust : bucketHas S.must_run n)
    (hpre : ∀ T ∈ pre, ¬ bucketHas T.should_run n) :
    bucketHas (mergeSelections (pre ++ S :: post)).all_must n ∧
    ¬ bucketHas (mergeSelections (pre ++ S :: post)).all_should n := by
  unfold mergeSelections
  rw [List.foldl_append, List.foldl_cons]
  have hsafe : SafeState n (pre.foldl mergeStep ⟨[], [], []⟩) := by
    refine safe_fold_sels hpre ?_
    constructor
    · intro h
      cases h
    · rintro ⟨e, he, _⟩
      cases he
  have hfrozen : FrozenMust n (mergeStep (pre.foldl mergeStep ⟨[], [], []⟩) S) := by
    unfold mergeStep
    exact frozen_fold_should (safe_to_frozen_fold_must hsafe hmust)
  have hfinal : FrozenMust n
      (post.foldl mergeStep (mergeStep (pre.foldl mergeStep ⟨[], [], []⟩) S)) :=
    frozen_fold_sels hfrozen
  exact ⟨hfinal.2.1, hfinal.2.2⟩

/-- Witness for `batch_merge_first_bucket_wins` at a concrete two-change
batch in which both changes select the same test as `must_run`. -/
theorem batch_merge_first_bucket_wins_witness :
    bucketHas
      (mergeSelections
        [⟨[⟨⟨"RHACM4K-100: t", "s", "f", ["a"]⟩, ["a"], 3, "must_run"⟩], []⟩,
         ⟨[⟨⟨"RHACM4K-100: t", "s", "f", ["a"]⟩, ["a"], 3, "must_run"⟩], []⟩]).all_must
      "RHACM4K-100: t" ∧
    ¬ bucketHas
      (mergeSelections
        [⟨[⟨⟨"RHACM4K-100: t", "s", "f", ["a"]⟩, ["a"], 3, "must_run"⟩], []⟩,
         ⟨[⟨⟨"RHACM4K-100: t", "s", "f", ["a"]⟩, ["a"], 3, "must_run"⟩], []⟩]).all_should
      "RHACM4K-100: t" :=
  batch_merge_first_bucket_wins []
    [⟨[⟨⟨"RHACM4K-100: t", "s", "f", ["a"]⟩, ["a"], 3, "must_run"⟩], []⟩]
    ⟨[⟨⟨"RHACM4K-100: t", "s", "f", ["a"]⟩, ["a"], 3, "must_run"⟩], []⟩
    "RHACM4K-100: t"
    ⟨_, List.mem_singleton.mpr rfl, rfl⟩
    (by intro T hT; cases hT)

/-- A fold step that never fires leaves the state unchanged. -/
lemma fold_must_id {l : List SelEntry} :
    ∀ {st : MergeState}, (∀ t ∈ l, t.test.name ∈ st.seen) →
      l.foldl mergeMustStep st = st := by
  induction l with
  | nil => intro st _; rfl
  | cons t ts ih =>
    intro st h
    simp only [List.foldl_cons]
    have ht : mergeMustStep st t = st := by
      unfold mergeMustStep
      rw [if_pos (h t (List.mem_cons_self t ts))]
    rw [ht]
    exact ih (fun u hu => h u (List.mem_cons_of_mem _ hu))

lemma fold_should_id {l : List SelEntry} :
    ∀ {st : MergeState}, (∀ t ∈ l, t.test.name ∈ st.seen) →
      l.foldl mergeShouldStep st = st := by
  induction l with
  | nil => intro st _; rfl
  | cons t ts ih =>
    intro st h
    simp only [List.foldl_cons]
    have ht : mergeShouldStep st t = st := by
      unfold mergeShouldStep
      rw [if_pos (h t (List.mem_cons_self t ts))]
    rw [ht]
    exact ih (fun u hu => h u (List.mem_cons_of_mem _ hu))

lemma seen_after_fold_should_mono {l : List SelEntry} {n : String} :
    ∀ {st : MergeState}, n ∈ st.seen → n ∈ (l.foldl mergeShouldStep st).seen := by
  induction l with
  | nil => intro st h; simpa using h
  | cons t ts ih =>
    intro st h
    simp only [List.foldl_cons]
    exact ih (seen_mono_should h)

lemma seen_after_fold_must_mono {l : List SelEntry} {n : String} :
    ∀ {st : MergeState}, n ∈ st.seen → n ∈ (l.foldl mergeMustStep st).seen := by
  induction l with
  | nil => intro st h; simpa using h
  | cons t ts ih =>
    intro st h
    simp only [List.foldl_cons]
    exact ih (seen_mono_must h)

/-- After merging a selection's `must_run` bucket, every test name of that
bucket is in the `seen` set. -/
lemma seen_after_fold_must {l : List SelEntry} :
    ∀ {st : MergeState} {t : SelEntry}, t ∈ l →
      t.test.name ∈ (l.foldl mergeMustStep st).seen := by
  induction l with
  | nil => intro st t h; cases h
  | cons u us ih =>
    intro st t h
    simp only [List.foldl_cons]
    rcases List.mem_cons.mp h with rfl | hmem
    · refine seen_after_fold_must_mono ?_
      unfold mergeMustStep
      by_cases ht : t.test.name ∈ st.seen
      · rw [if_pos ht]
        exact ht
      · rw [if_neg ht]
        exact List.mem_append.mpr (Or.inr (List.mem_singleton.mpr rfl))
    · exact ih hmem

lemma seen_after_fold_should {l : List SelEntry} :
    ∀ {st : MergeState} {t : SelEntry}, t ∈ l →
      t.test.name ∈ (l.foldl mergeShouldStep st).seen := by
  induction l with
  | nil => intro st t h; cases h
  | cons u us ih =>
    intro st t h
    simp only [List.foldl_cons]
    rcases List.mem_cons.mp h with rfl | hmem
    · refine seen_after_fold_should_mono ?_
      unfold mergeShouldStep
      by_cases ht : t.test.name ∈ st.seen
      · rw [if_pos ht]; exact ht
      · rw [if_neg ht]
        exact List.mem_append.mpr (Or.inr (List.mem_singleton.mpr rfl))
    · exact ih hmem

/-- Merging the same selection a second time changes nothing: all its test
names are already seen. -/
lemma mergeStep_idem (st : MergeState) (sel : PRSelection) :
    mergeStep (mergeStep st sel) sel = mergeStep st sel := by
  have hmustSeen : ∀ t ∈ sel.must_run, t.test.name ∈ (mergeStep st sel).seen := by
    intro t ht
    unfold mergeStep
    exact seen_after_fold_should_mono (seen_after_fold_must ht)
  have hshouldSeen : ∀ t ∈ sel.should_run,
      t.test.name ∈ (mergeStep st sel).seen := by
    intro t ht
    unfold mergeStep
    exact seen_after_fold_should ht
  calc mergeStep (mergeStep st sel) sel
      = sel.should_run.foldl mergeShouldStep
          (sel.must_run.foldl mergeMustStep (mergeStep st sel)) := rfl
    _ = sel.should_run.foldl mergeShouldStep (mergeStep st sel) := by
          rw [fold_must_id hmustSeen]
    _ = mergeStep st sel := fold_should_id hshouldSeen

/-- C7: batch merge is idempotent on test-name identity — merging a
sequence in which the selection `S` appears twice yields exactly the same
merged state (same entries in the same buckets) as merging it with `S`
appearing once. -/
theorem batch_merge_idem (pre post : List PRSelection) (S : PRSelection) :
    mergeSelections (pre ++ S :: S :: post) =
    mergeSelections (pre ++ S :: post) := by
  unfold mergeSelections
  rw [List.foldl_append, List.foldl_append, List.foldl_cons, List.foldl_cons,
    List.foldl_cons, mergeStep_idem]

/-- `re.search(r'RHACM4K-(\d+)', s)` over a char list: find the leftmost
position where `RHACM4K-` is followed by at least one digit and return the
maximal digit run after the dash. -/
def extractNumAux : List Char → Option (List Char)
  | [] => none
  | c :: rest =>
    if startsWithList "RHACM4K-".data (c :: rest) then
      let ds := ((c :: rest).drop 8).takeWhile (fun ch => ch.isDigit)
      if ds.isEmpty then extractNumAux rest else some ds
    else extractNumAux rest

/-- The test-number extraction used by the optimizer
(`re.search(r'RHACM4K-(\d+)', test['name'])`, group 1). -/
def extractTestNumber (s : String) : Option String :=
  (extractNumAux s.data).map (fun l => ⟨l⟩)

/-- Python `str.isdigit` (ASCII): non-empty and all digits.  The optimizer
uses it to separate numeric identifier tags from functional tags. -/
def isDigitStr (s : String) : Bool :=
  !s.data.isEmpty && s.data.all (fun c => c.isDigit)

lemma extractNumAux_digits {l : List Char} {ds : List Char}
    (h : extractNumAux l = some ds) : ds ≠ [] ∧ ∀ c ∈ ds, c.isDigit = true := by
  induction l with
  | nil => cases h
  | cons c rest ih =>
    unfold extractNumAux at h
    by_cases hs : startsWithList "RHACM4K-".data (c :: rest) = true
    · rw [if_pos hs] at h
      by_cases he : (((c :: rest).drop 8).takeWhile (fun ch => ch.isDigit)).isEmpty = true
      · rw [if_pos he] at h
        exact ih h
      · rw [if_neg he] at h
        rcases Option.some.inj h with rfl
        constructor
        · intro habs
          rw [habs] at he
          exact he rfl
        · intro x hx
          exact List.mem_takeWhile_imp hx
    · rw [if_neg hs] at h
      exact ih h

lemma extractTestNumber_digit {s n : String}
    (h : extractTestNumber s = some n) : isDigitStr n = true := by
  unfold extractTestNumber at h
  cases haux : extractNumAux s.data with
  | none => rw [haux] at h; cases h
  | some ds =>
    rw [haux] at h
    rcases Option.some.inj h with rfl
    obtain ⟨hne, hdig⟩ := extractNumAux_digits haux
    unfold isDigitStr
    simp only [Bool.and_eq_true, Bool.not_eq_true']
    constructor
    · simpa [List.isEmpty_iff] using hne
    · rw [List.all_eq_true]
      intro c hc
      exact hdig c hc

/-- Python `tag.lstrip('@')`: drop all leading `@` characters. -/
def stripAt (s : String) : String := ⟨s.data.dropWhile (fun c => c == '@')⟩

/-- Parsing one raw tag list of a `.cy.js` describe/it block: strip the
`@` markers and keep the non-empty results (`if tag_clean:`). -/
def parseCyTags (raw : List String) : List String :=
  raw.foldr (fun t acc =>
    let t_clean := stripAt t
    if t_clean == "" then acc else t_clean :: acc) []

/-- The generic noise tags filtered out of every `.cy.js` case. -/
def cypressNoiseTags : List String := ["non-ui", "uitest", "ui"]

/-- The tag-combination step of the `.cy.js` branch of
`TestRepository._extract_tags_from_file`: union describe-level and
it-level tags, filter the noise tags, and always add the case's embedded
numeric ticket identifier if not already present. -/
def combineCypressTags (describe_tags it_tags : List String)
    (test_number : String) : List String :=
  let combined_tags := (describe_tags ++ it_tags).filter
    (fun t => !(t ∈ cypressNoiseTags : Bool))
  if !(test_number == "") && !(test_number ∈ combined_tags : Bool) then
    combined_tags ++ [test_number]
  else combined_tags

/-- C9: in the `.cy.js` dialect, a case whose name embeds a
`RHACM4K-<n>` ticket number gets as final tag set exactly the union of the
(parsed) suite-level and case-level tags minus the noise tags `ui`,
`non-ui`, `uitest`, plus the embedded number itself — the number is always
included, declared or not. -/
theorem cypress_tag_union_law (case_name : String) (n : String)
    (describe_raw it_raw : List String)
    (hn : extractTestNumber case_name = some n) :
    ∀ t, t ∈ combineCypressTags (parseCyTags describe_raw)
            (parseCyTags it_raw) n ↔
      ((t ∈ parseCyTags describe_raw ∨ t ∈ parseCyTags it_raw) ∧
        t ∉ cypressNoiseTags) ∨ t = n := by
  have hnd : isDigitStr n = true := extractTestNumber_digit hn
  have hne : (n == "") = false := by
    cases h : (n == "") with
    | false => rfl
    | true =>
      rw [beq_iff_eq] at h
      subst h
      simp [isDigitStr] at hnd
  intro t
  unfold combineCypressTags
  set combined := (parseCyTags describe_raw ++ parseCyTags it_raw).filter
    (fun t => !(t ∈ cypressNoiseTags : Bool)) with hcomb
  have hmemc : ∀ x, x ∈ combined ↔
      (x ∈ parseCyTags describe_raw ∨ x ∈ parseCyTags it_raw) ∧
        x ∉ cypressNoiseTags := by
    intro x
    rw [hcomb, List.mem_filter, List.mem_append]
    simp
  by_cases hin : n ∈ combined
  · have hb : decide (n ∈ combined) = true := by simpa using hin
    simp only [hb, Bool.not_true, Bool.and_false, Bool.false_eq_true, if_false]
    rw [hmemc]
    constructor
    · exact Or.inl
    · rintro (h | rfl)
      · exact h
      · exact (hmemc _).mp hin
  · have hb : decide (n ∈ combined) = false := by simpa using hin
    rw [if_pos (by rw [hne, hb]; rfl)]
    rw [List.mem_append, List.mem_singleton, hmemc]

/-- Witness for `cypress_tag_union_law` at a concrete case. -/
theorem cypress_tag_union_law_witness :
    "grc" ∈ combineCypressTags (parseCyTags ["@grc", "@ui"])
        (parseCyTags ["@12345"]) "12345" ↔
      (("grc" ∈ parseCyTags ["@grc", "@ui"] ∨
        "grc" ∈ parseCyTags ["@12345"]) ∧
        "grc" ∉ cypressNoiseTags) ∨ "grc" = "12345" :=
  cypress_tag_union_law "RHACM4K-12345: some case" "12345"
    ["@grc", "@ui"] ["@12345"] (by decide) "grc"

/-- Python `int(x)` on a digit string. -/
def digitVal (s : String) : Nat :=
  s.data.foldl (fun n c => n * 10 + (c.toNat - 48)) 0

/-- Python `set.add` on insertion-ordered duplicate-free lists. -/
def addToSet (vs : List String) (v : String) : List String :=
  if v ∈ vs then vs else vs ++ [v]

/-- `functional_tag_coverage[func_tag].add(test_number)` with defaulting:
update the first entry keyed `k` (or append a new one). -/
def covAdd (m : List (String × List String)) (k v : String) :
    List (String × List String) :=
  match m with
  | [] => [(k, [v])]
  | kv :: rest =>
    if kv.1 == k then (kv.1, addToSet kv.2 v) :: rest
    else kv :: covAdd rest k v

/-- Python dict assignment `m[k] = v` preserving first-insertion key
order. -/
def mapSet (m : List (String × List String)) (k : String) (v : List String) :
    List (String × List String) :=
  match m with
  | [] => [(k, v)]
  | kv :: rest =>
    if kv.1 == k then (kv.1, v) :: rest
    else kv :: mapSet rest k v

/-- The non-numeric tags of a test (`[t for t in all_tags if not
t.isdigit()]`). -/
def functionalTagsOf (t : TestInfo) : List String :=
  t.tags.filter (fun tg => !isDigitStr tg)

/-- The two maps the grc optimizer builds:
`functional_tag_coverage` and `test_to_functional_tags`. -/
structure CovMaps where
  cov : List (String × List String)
  numMap : List (String × List String)
deriving DecidableEq, Repr

/-- One test of the first loop of `_optimize_tags_for_jenkins`: skip tests
without a `RHACM4K-<n>` name, record the test's functional tags under its
number, and add the number to each functional tag's coverage set. -/
def buildCovStep (st : CovMaps) (test : TestInfo) : CovMaps :=
  match extractTestNumber test.name with
  | none => st
  | some test_number =>
    let functional_tags := functionalTagsOf test
    let st := { st with numMap := mapSet st.numMap test_number functional_tags }
    { st with
      cov := functional_tags.foldl (fun m ft => covAdd m ft test_number) st.cov }

/-- The coverage maps over all selected tests. -/
def buildCov (selected_tests : List TestInfo) : CovMaps :=
  selected_tests.foldl buildCovStep ⟨[], []⟩

/-- `sorted(functional_tag_coverage.items(), key=lambda x: len(x[1]),
reverse=True)`: descending coverage size, stable. -/
def covDescLe (a b : String × List String) : Bool :=
  decide (b.2.length ≤ a.2.length)

/-- The functional tags in the greedy consideration order. -/
def sortedCoverage (selected_tests : List TestInfo) :
    List (String × List String) :=
  sortLe covDescLe (buildCov selected_tests).cov

/-- The greedy state: `optimized_tags` (accepted functional tags, in
acceptance order) and `covered_test_numbers`. -/
structure GreedySt where
  accepted : List String
  covered : List String
deriving DecidableEq, Repr

/-- One step of the greedy loop: accept a functional tag only if its total
coverage is at least `min_tests_per_tag` and it still covers at least
`min_tests_per_tag` uncovered tests; accepting marks all its covered test
numbers as covered. -/
def greedyStep (min_tests_per_tag : Nat) (st : GreedySt)
    (p : String × List String) : GreedySt :=
  if min_tests_per_tag ≤ p.2.length then
    if min_tests_per_tag ≤
        (p.2.filter (fun n => !(n ∈ st.covered : Bool))).length then
      ⟨st.accepted ++ [p.1], setUnion st.covered p.2⟩
    else st
  else st

/-- The greedy pass over the sorted functional tags. -/
def greedyAccept (min_tests_per_tag : Nat)
    (l : List (String × List String)) : GreedySt :=
  l.foldl (greedyStep min_tests_per_tag) ⟨[], []⟩

/-- `all_test_numbers = set(test_to_functional_tags.keys())`. -/
def allTestNumbers (selected_tests : List TestInfo) : List String :=
  (buildCov selected_tests).numMap.map Prod.fst

/-- The optimized tag set of the grc branch, before sorting and the `@`
prefixing: the accepted functional tags plus one numeric identifier tag
for every still-uncovered test number. -/
def optimizeTagList (selected_tests : List TestInfo)
    (min_tests_per_tag : Nat) : List String :=
  let st := greedyAccept min_tests_per_tag (sortedCoverage selected_tests)
  let uncovered_test_numbers :=
    (allTestNumbers selected_tests).filter (fun n => !(n ∈ st.covered : Bool))
  st.accepted ++ uncovered_test_numbers

/-- The Jenkins output sort key of the optimizer:
`key=lambda x: (x.isdigit(), int(x) if x.isdigit() else 0, x)` —
functional tags (isdigit false) first, compared lexically; numeric tags
after, compared by value and then lexically. -/
def mixedKeyLe (x y : String) : Bool :=
  if isDigitStr x == isDigitStr y then
    if isDigitStr x then
      if digitVal x == digitVal y then strLe x y
      else decide (digitVal x < digitVal y)
    else strLe x y
  else isDigitStr x == false

/-- Numeric-value comparison with a lexical tie-break: how the claim's
"numeric tags sort numerically" reads on digit strings. -/
def numericLe (x y : String) : Bool :=
  if digitVal x == digitVal y then strLe x y
  else decide (digitVal x < digitVal y)

/-- The grc branch of `UnifiedPRTestSelector._optimize_tags_for_jenkins`:
empty input gives the empty expression, otherwise the optimized tags are
sorted with the mixed key, `@`-prefixed and joined with `||`. -/
def optimizeTagsForJenkinsGrc (selected_tests : List TestInfo)
    (min_tests_per_tag : Nat) : String :=
  if selected_tests.isEmpty then ""
  else
    String.intercalate "||"
      ((sortLe mixedKeyLe (optimizeTagList selected_tests min_tests_per_tag)).map
        (fun tag => "@" ++ tag))

/-- The spec's description of the optimizer output (§4.5 step 5), stated
independently of the code's mixed sort key: functional tags sorted
lexically, followed by numeric identifier tags sorted numerically, each
`@`-prefixed, joined with the logical-OR separator. -/
def specOptimizerOutput (selected_tests : List TestInfo)
    (min_tests_per_tag : Nat) : String :=
  String.intercalate "||"
    ((sortLe strLe ((optimizeTagList selected_tests min_tests_per_tag).filter
        (fun t => !isDigitStr t))).map (fun tag => "@" ++ tag)
      ++ (sortLe numericLe ((optimizeTagList selected_tests min_tests_per_tag).filter
          (fun t => isDigitStr t))).map (fun tag => "@" ++ tag))

/-- Total lookup in the tag index (missing tag covers nothing). -/
def lookupTagD (index : List (String × List TestInfo)) (tag : String) :
    List TestInfo :=
  (lookupTag index tag).getD []

/-- Re-expansion of a tag set against the TagIndex: the union, over the
tags, of the test cases indexed under each tag (the downstream runner's
reading of the boolean-OR tag expression). -/
def expandTags (index : List (String × List TestInfo))
    (tags : List String) : List TestInfo :=
  tags.foldl (fun acc tag => acc ++ lookupTagD index tag) []

lemma addToSet_mem {vs : List String} {v x : String} :
    x ∈ addToSet vs v ↔ x ∈ vs ∨ x = v := by
  unfold addToSet
  by_cases h : v ∈ vs
  · rw [if_pos h]
    constructor
    · exact Or.inl
    · rintro (hx | rfl)
      · exact hx
      · exact h
  · rw [if_neg h]
    simp

lemma covAdd_sound {m : List (String × List String)} {k v tg : String}
    {nums : List String} (h : (tg, nums) ∈ covAdd m k v) {n : String}
    (hn : n ∈ nums) :
    (∃ nums0, (tg, nums0) ∈ m ∧ n ∈ nums0) ∨ (tg = k ∧ n = v) := by
  induction m with
  | nil =>
    unfold covAdd at h
    rcases List.mem_singleton.mp h with heq
    rcases Prod.mk.injEq .. ▸ heq with ⟨h1, h2⟩
    right
    refine ⟨h1, ?_⟩
    rw [h2] at hn
    exact List.mem_singleton.mp hn
  | cons kv rest ih =>
    unfold covAdd at h
    by_cases hk : (kv.1 == k) = true
    · rw [if_pos hk] at h
      rcases List.mem_cons.mp h with heq | hmem
      · rcases Prod.mk.injEq .. ▸ heq with ⟨h1, h2⟩
        rw [h2] at hn
        rcases addToSet_mem.mp hn with hvs | rfl
        · left
          refine ⟨kv.2, ?_, hvs⟩
          rw [h1]
          exact List.mem_cons_self _ _
        · right
          exact ⟨h1.trans (beq_iff_eq.mp hk), rfl⟩
      · left
        exact ⟨nums, List.mem_cons_of_mem _ hmem, hn⟩
    · rw [if_neg hk] at h
      rcases List.mem_cons.mp h with heq | hmem
      · left
        exact ⟨nums, heq ▸ List.mem_cons_self _ _, hn⟩
      · rcases ih hmem with ⟨nums0, h0, hn0⟩ | hr
        · exact Or.inl ⟨nums0, List.mem_cons_of_mem _ h0, hn0⟩
        · exact Or.inr hr

lemma mapSet_self_key {m : List (String × List String)} {k : String}
    {v : List String} : k ∈ (mapSet m k v).map Prod.fst := by
  induction m with
  | nil => simp [mapSet]
  | cons kv rest ih =>
    unfold mapSet
    by_cases hk : (kv.1 == k) = true
    · rw [if_pos hk]
      simp only [List.map_cons, List.mem_cons]
      exact Or.inl (beq_iff_eq.mp hk).symm
    · rw [if_neg hk]
      simp only [List.map_cons, List.mem_cons]
      exact Or.inr ih

lemma mapSet_key_mono {m : List (String × List String)} {k k' : String}
    {v : List String} (h : k' ∈ m.map Prod.fst) :
    k' ∈ (mapSet m k v).map Prod.fst := by
  induction m with
  | nil => cases h
  | cons kv rest ih =>
    simp only [List.map_cons, List.mem_cons] at h
    unfold mapSet
    by_cases hk : (kv.1 == k) = true
    · rw [if_pos hk]
      simp only [List.map_cons, List.mem_cons]
      rcases h with heq | hmem
      · exact Or.inl heq
      · exact Or.inr hmem
    · rw [if_neg hk]
      simp only [List.map_cons, List.mem_cons]
      rcases h with heq | hmem
      · exact Or.inl heq
      · exact Or.inr (ih hmem)

lemma numKeys_step_mono {st : CovMaps} {test : TestInfo} {n : String}
    (h : n ∈ st.numMap.map Prod.fst) :
    n ∈ (buildCovStep st test).numMap.map Prod.fst := by
  unfold buildCovStep
  cases hext : extractTestNumber test.name with
  | none => exact h
  | some tn => exact mapSet_key_mono h

lemma numKeys_fold_mono {l : List TestInfo} {n : String} :
    ∀ {st : CovMaps}, n ∈ st.numMap.map Prod.fst →
      n ∈ (l.foldl buildCovStep st).numMap.map Prod.fst := by
  induction l with
  | nil => intro st h; simpa using h
  | cons t ts ih =>
    intro st h
    simp only [List.foldl_cons]
    exact ih (numKeys_step_mono h)

lemma mem_allTestNumbers {tests : List TestInfo} {t : TestInfo} {n : String}
    (ht : t ∈ tests) (hn : extractTestNumber t.name = some n) :
    n ∈ allTestNumbers tests := by
  unfold allTestNumbers buildCov
  have : ∀ (l : List TestInfo) (st : CovMaps), t ∈ l →
      n ∈ (l.foldl buildCovStep st).numMap.map Prod.fst := by
    intro l
    induction l with
    | nil => intro st h; cases h
    | cons u us ih =>
      intro st h
      simp only [List.foldl_cons]
      rcases List.mem_cons.mp h with rfl | hmem
      · refine numKeys_fold_mono ?_
        unfold buildCovStep
        rw [hn]
        exact mapSet_self_key
      · exact ih _ hmem
  exact this tests ⟨[], []⟩ ht

/-- Soundness of one coverage pair relative to the selected-test list:
the number belongs to a selected test that carries the functional tag. -/
def GoodPair (tests : List TestInfo) (tg n : String) : Prop :=
  ∃ t ∈ tests, extractTestNumber t.name = some n ∧ tg ∈ t.tags ∧
    isDigitStr tg = false

/-- Soundness of the whole coverage map. -/
def CovGood (tests : List TestInfo) (m : List (String × List String)) : Prop :=
  ∀ tg nums, (tg, nums) ∈ m → ∀ n ∈ nums, GoodPair tests tg n

lemma covAdd_good {tests : List TestInfo} {m : List (String × List String)}
    (hm : CovGood tests m) {k v : String} (hkv : GoodPair tests k v) :
    CovGood tests (covAdd m k v) := by
  intro tg nums h n hn
  rcases covAdd_sound h hn with ⟨nums0, h0, hn0⟩ | ⟨rfl, rfl⟩
  · exact hm _ _ h0 _ hn0
  · exact hkv

lemma foldCovAdd_good {tests : List TestInfo} {test : TestInfo}
    (htest : test ∈ tests) {tn : String}
    (hext : extractTestNumber test.name = some tn) :
    ∀ (fts : List String), (∀ ft ∈ fts, ft ∈ test.tags ∧ isDigitStr ft = false) →
      ∀ {m : List (String × List String)}, CovGood tests m →
        CovGood tests (fts.foldl (fun m ft => covAdd m ft tn) m) := by
  intro fts
  induction fts with
  | nil => intro _ m hm; simpa using hm
  | cons ft rest ih =>
    intro hfts m hm
    simp only [List.foldl_cons]
    refine ih (fun x hx => hfts x (List.mem_cons_of_mem _ hx)) ?_
    obtain ⟨hmem, hdig⟩ := hfts ft (List.mem_cons_self ft rest)
    exact covAdd_good hm ⟨test, htest, hext, hmem, hdig⟩

lemma buildCovStep_good {tests : List TestInfo} {test : TestInfo}
    (htest : test ∈ tests) {st : CovMaps} (h : CovGood tests st.cov) :
    CovGood tests (buildCovStep st test).cov := by
  unfold buildCovStep
  cases hext : extractTestNumber test.name with
  | none => exact h
  | some tn =>
    refine foldCovAdd_good htest hext _ ?_ h
    intro ft hft
    have := List.mem_filter.mp hft
    exact ⟨this.1, by simpa using this.2⟩

lemma buildCov_good (tests : List TestInfo) :
    CovGood tests (buildCov tests).cov := by
  unfold buildCov
  have : ∀ (l : List TestInfo), (∀ t ∈ l, t ∈ tests) →
      ∀ {st : CovMaps}, CovGood tests st.cov →
        CovGood tests (l.foldl buildCovStep st).cov := by
    intro l
    induction l with
    | nil => intro _ st h; simpa using h
    | cons t ts ih =>
      intro hsub st h
      simp only [List.foldl_cons]
      exact ih (fun x hx => hsub x (List.mem_cons_of_mem _ hx))
        (buildCovStep_good (hsub t (List.mem_cons_self t ts)) h)
  refine this tests (fun _ h => h) ?_
  intro tg nums h
  cases h

lemma greedy_accepted_mono {minT : Nat} {l : List (String × List String)} :
    ∀ {st : GreedySt} {tg : String}, tg ∈ st.accepted →
      tg ∈ (l.foldl (greedyStep minT) st).accepted := by
  induction l with
  | nil => intro st tg h; simpa using h
  | cons p t ih =>
    intro st tg h
    simp only [List.foldl_cons]
    refine ih ?_
    unfold greedyStep
    split
    · split
      · exact List.mem_append.mpr (Or.inl h)
      · exact h
    · exact h

lemma greedy_covered_sound {minT : Nat} {l : List (String × List String)} :
    ∀ {st : GreedySt} {n : String}, n ∈ (l.foldl (greedyStep minT) st).covered →
      n ∈ st.covered ∨
        ∃ tg nums, (tg, nums) ∈ l ∧
          tg ∈ (l.foldl (greedyStep minT) st).accepted ∧ n ∈ nums := by
  induction l with
  | nil => intro st n h; exact Or.inl (by simpa using h)
  | cons p t ih =>
    intro st n h
    simp only [List.foldl_cons] at h ⊢
    rcases ih h with hcov | ⟨tg, nums, hpair, hacc, hmem⟩
    · unfold greedyStep at hcov
      by_cases h1 : minT ≤ p.2.length
      · rw [if_pos h1] at hcov
        by_cases h2 : minT ≤ (p.2.filter (fun n => !(n ∈ st.covered : Bool))).length
        · rw [if_pos h2] at hcov
          rcases setUnion_mem.mp hcov with hst | hp2
          · exact Or.inl hst
          · right
            refine ⟨p.1, p.2, ?_, ?_, hp2⟩
            · exact List.mem_cons_self p t
            · refine greedy_accepted_mono ?_
              unfold greedyStep
              rw [if_pos h1, if_pos h2]
              exact List.mem_append.mpr (Or.inr (List.mem_singleton.mpr rfl))
        · rw [if_neg h2] at hcov
          exact Or.inl hcov
      · rw [if_neg h1] at hcov
        exact Or.inl hcov
    · right
      exact ⟨tg, nums, List.mem_cons_of_mem _ hpair, hacc, hmem⟩

lemma greedy_accepted_sound {minT : Nat} {l : List (String × List String)} :
    ∀ {st : GreedySt} {tg : String}, tg ∈ (l.foldl (greedyStep minT) st).accepted →
      tg ∈ st.accepted ∨ ∃ nums, (tg, nums) ∈ l ∧ minT ≤ nums.length := by
  induction l with
  | nil => intro st tg h; exact Or.inl (by simpa using h)
  | cons p t ih =>
    intro st tg h
    simp only [List.foldl_cons] at h
    rcases ih h with hacc | ⟨nums, hpair, hlen⟩
    · unfold greedyStep at hacc
      by_cases h1 : minT ≤ p.2.length
      · rw [if_pos h1] at hacc
        by_cases h2 : minT ≤ (p.2.filter (fun n => !(n ∈ st.covered : Bool))).length
        · rw [if_pos h2] at hacc
          rcases List.mem_append.mp hacc with hmem | hmem
          · exact Or.inl hmem
          · rcases List.mem_singleton.mp hmem with rfl
            right
            refine ⟨p.2, ?_, h1⟩
            exact List.mem_cons_self p t
        · rw [if_neg h2] at hacc
          exact Or.inl hacc
      · rw [if_neg h1] at hacc
        exact Or.inl hacc
    · exact Or.inr ⟨nums, List.mem_cons_of_mem _ hpair, hlen⟩

lemma expandTags_acc_mono {index : List (String × List TestInfo)}
    {l : List String} {t : TestInfo} :
    ∀ {acc : List TestInfo}, t ∈ acc →
      t ∈ l.foldl (fun acc tag => acc ++ lookupTagD index tag) acc := by
  induction l with
  | nil => intro acc h; simpa using h
  | cons a as ih =>
    intro acc h
    simp only [List.foldl_cons]
    exact ih (List.mem_append.mpr (Or.inl h))

lemma mem_expandTags {index : List (String × List TestInfo)}
    {l : List String} {tg : String} (htg : tg ∈ l) {t : TestInfo}
    (ht : t ∈ lookupTagD index tg) : t ∈ expandTags index l := by
  unfold expandTags
  have : ∀ (l' : List String) (acc : List TestInfo), tg ∈ l' →
      t ∈ l'.foldl (fun acc tag => acc ++ lookupTagD index tag) acc := by
    intro l'
    induction l' with
    | nil => intro acc h; cases h
    | cons a as ih =>
      intro acc h
      simp only [List.foldl_cons]
      rcases List.mem_cons.mp h with rfl | hmem
      · exact expandTags_acc_mono (List.mem_append.mpr (Or.inr ht))
      · exact ih _ hmem
  exact this l [] htg

/-- A concrete test of the optimizer counterexample. -/
def cexTest (i : Nat) : TestInfo :=
  ⟨"RHACM4K-" ++ toString i ++ ": a", "s", "f", ["zstream", toString i]⟩

/-- The five selected tests of the optimizer counterexample. -/
def cexTests : List TestInfo :=
  [cexTest 1, cexTest 2, cexTest 3, cexTest 4, cexTest 5]

/-- A tag index in which `zstream` covers one MORE test than was
selected. -/
def cexIndex : List (String × List TestInfo) :=
  [("zstream", [cexTest 1, cexTest 2, cexTest 3, cexTest 4, cexTest 5, cexTest 6]),
   ("1", [cexTest 1]), ("2", [cexTest 2]), ("3", [cexTest 3]),
   ("4", [cexTest 4]), ("5", [cexTest 5]), ("6", [cexTest 6])]

/-- C1 counterexample: five selected tests all carry `zstream`, which the
index also attaches to a sixth, unselected test; the optimizer emits just
`zstream`, whose re-expansion contains the sixth test — so the re-expanded
set does NOT equal the input set (a test case is added). -/
theorem optimizer_roundtrip_equality_cex :
    cexTest 6 ∈ expandTags cexIndex (optimizeTagList cexTests 5) ∧
    cexTest 6 ∉ cexTests := by
  constructor
  · decide
  · decide

/-- C1 (amended): the optimizer never DROPS a test case — whenever every
selected test's name embeds a `RHACM4K` number, distinct tests embed
distinct numbers, every test carries its own number as a tag, and the
index lists every test under each of its tags, the re-expansion of the
optimized tag set contains every input test case.  Exact equality fails
(the counterexample shows a test case can be added). -/
theorem optimizer_roundtrip_superset (tests : List TestInfo)
    (index : List (String × List TestInfo)) (minT : Nat)
    (hnum : ∀ t ∈ tests, (extractTestNumber t.name).isSome = true)
    (htag : ∀ t ∈ tests, ∀ n ∈ (extractTestNumber t.name).toList, n ∈ t.tags)
    (hidx : ∀ t ∈ tests, ∀ tg ∈ t.tags, t ∈ lookupTagD index tg)
    (hinj : ∀ t1 ∈ tests, ∀ t2 ∈ tests,
      extractTestNumber t1.name = extractTestNumber t2.name → t1 = t2) :
    ∀ t ∈ tests, t ∈ expandTags index (optimizeTagList tests minT) := by
  intro t ht
  obtain ⟨n, hn⟩ : ∃ n, extractTestNumber t.name = some n := by
    have h := hnum t ht
    cases hext : extractTestNumber t.name with
    | none => rw [hext] at h; cases h
    | some n => exact ⟨n, rfl⟩
  have hnAll : n ∈ allTestNumbers tests := mem_allTestNumbers ht hn
  by_cases hcov : n ∈ (greedyAccept minT (sortedCoverage tests)).covered
  · rcases greedy_covered_sound (by simpa [greedyAccept] using hcov) with
      hbase | ⟨tg, nums, hpair, hacc, hmem⟩
    · cases hbase
    · have hpair' : (tg, nums) ∈ (buildCov tests).cov :=
        mem_sortLe.mp hpair
      rcases buildCov_good tests tg nums hpair' n hmem with
        ⟨t', ht', hext', htg', _⟩
      have heq : t' = t := hinj t' ht' t ht (by rw [hext', hn])
      subst heq
      have htgout : tg ∈ optimizeTagList tests minT := by
        unfold optimizeTagList
        exact List.mem_append.mpr (Or.inl (by simpa [greedyAccept] using hacc))
      exact mem_expandTags htgout (hidx t' ht tg htg')
  · have hnout : n ∈ optimizeTagList tests minT := by
      unfold optimizeTagList
      refine List.mem_append.mpr (Or.inr ?_)
      refine List.mem_filter.mpr ⟨hnAll, ?_⟩
      simpa using hcov
    have hntag : n ∈ t.tags := by
      refine htag t ht n ?_
      rw [hn]
      simp [Option.toList]
    exact mem_expandTags hnout (hidx t ht n hntag)

/-- Witness for `optimizer_roundtrip_superset` at a concrete one-test
selection. -/
theorem optimizer_roundtrip_superset_witness :
    cexTest 7 ∈ expandTags [("zstream", [cexTest 7]), ("7", [cexTest 7])]
      (optimizeTagList [cexTest 7] 5) :=
  optimizer_roundtrip_superset [cexTest 7]
    [("zstream", [cexTest 7]), ("7", [cexTest 7])] 5
    (by decide) (by decide) (by decide) (by decide) (cexTest 7) (by decide)

lemma mixed_ff {x y : String} (hx : isDigitStr x = false)
    (hy : isDigitStr y = false) : mixedKeyLe x y = strLe x y := by
  unfold mixedKeyLe
  rw [hx, hy]
  rfl

lemma mixed_fd {x y : String} (hx : isDigitStr x = false)
    (hy : isDigitStr y = true) : mixedKeyLe x y = true := by
  unfold mixedKeyLe
  rw [hx, hy]
  rfl

lemma mixed_df {x y : String} (hx : isDigitStr x = true)
    (hy : isDigitStr y = false) : mixedKeyLe x y = false := by
  unfold mixedKeyLe
  rw [hx, hy]
  rfl

lemma mixed_dd {x y : String} (hx : isDigitStr x = true)
    (hy : isDigitStr y = true) : mixedKeyLe x y = numericLe x y := by
  unfold mixedKeyLe numericLe
  rw [hx, hy]
  rfl

lemma insertLe_agree {α : Type} {le1 le2 : α → α → Bool} {a : α}
    {l : List α} (h : ∀ b ∈ l, le1 a b = le2 a b) :
    insertLe le1 a l = insertLe le2 a l := by
  induction l with
  | nil => rfl
  | cons b t ih =>
    simp only [insertLe]
    rw [h b (List.mem_cons_self b t)]
    by_cases hs : le2 a b = true
    · rw [if_pos hs, if_pos hs]
    · rw [if_neg hs, if_neg hs,
        ih (fun x hx => h x (List.mem_cons_of_mem _ hx))]

lemma sortLe_agree {α : Type} {le1 le2 : α → α → Bool} {l : List α}
    (h : ∀ a ∈ l, ∀ b ∈ l, le1 a b = le2 a b) :
    sortLe le1 l = sortLe le2 l := by
  induction l with
  | nil => rfl
  | cons a t ih =>
    simp only [sortLe]
    rw [ih (fun x hx y hy =>
      h x (List.mem_cons_of_mem _ hx) y (List.mem_cons_of_mem _ hy))]
    refine insertLe_agree ?_
    intro b hb
    exact h a (List.mem_cons_self a t) b
      (List.mem_cons_of_mem _ (mem_sortLe.mp hb))

lemma insert_mixed_functional {a : String} (ha : isDigitStr a = false)
    {F N : List String} (hF : ∀ b ∈ F, isDigitStr b = false)
    (hN : ∀ b ∈ N, isDigitStr b = true) :
    insertLe mixedKeyLe a (F ++ N) = insertLe strLe a F ++ N := by
  induction F with
  | nil =>
    simp only [List.nil_append]
    cases N with
    | nil => rfl
    | cons b N' =>
      have hab : mixedKeyLe a b = true :=
        mixed_fd ha (hN b (List.mem_cons_self b N'))
      simp only [insertLe]
      rw [if_pos hab]
      rfl
  | cons b F' ih =>
    have hab : mixedKeyLe a b = strLe a b :=
      mixed_ff ha (hF b (List.mem_cons_self b F'))
    simp only [List.cons_append, insertLe, List.append_eq]
    rw [hab]
    by_cases hs : strLe a b = true
    · rw [if_pos hs, if_pos hs]
      rfl
    · rw [if_neg hs, if_neg hs,
        ih (fun x hx => hF x (List.mem_cons_of_mem _ hx))]
      rfl

lemma insert_mixed_numeric {a : String} (ha : isDigitStr a = true)
    {F N : List String} (hF : ∀ b ∈ F, isDigitStr b = false)
    (hN : ∀ b ∈ N, isDigitStr b = true) :
    insertLe mixedKeyLe a (F ++ N) = F ++ insertLe numericLe a N := by
  induction F with
  | nil =>
    simp only [List.nil_append]
    exact insertLe_agree (fun b hb => mixed_dd ha (hN b hb))
  | cons b F' ih =>
    have hab : mixedKeyLe a b = false :=
      mixed_df ha (hF b (List.mem_cons_self b F'))
    simp only [List.cons_append, insertLe, List.append_eq]
    rw [hab]
    rw [if_neg (by simp)]
    rw [ih (fun x hx => hF x (List.mem_cons_of_mem _ hx))]

lemma sort_mixed_decompose {F N : List String}
    (hF : ∀ b ∈ F, isDigitStr b = false)
    (hN : ∀ b ∈ N, isDigitStr b = true) :
    sortLe mixedKeyLe (F ++ N) = sortLe strLe F ++ sortLe numericLe N := by
  induction F with
  | nil =>
    simp only [List.nil_append]
    show sortLe mixedKeyLe N = sortLe strLe [] ++ sortLe numericLe N
    rw [show sortLe strLe [] = ([] : List String) from rfl, List.nil_append]
    exact sortLe_agree (fun a ha b _ => mixed_dd (hN a ha) (hN b ‹b ∈ N›))
  | cons a F' ih =>
    simp only [List.cons_append, sortLe, List.append_eq]
    rw [ih (fun x hx => hF x (List.mem_cons_of_mem _ hx))]
    exact insert_mixed_functional (hF a (List.mem_cons_self a F'))
      (fun b hb => hF b (List.mem_cons_of_mem _ (mem_sortLe.mp hb)))
      (fun b hb => hN b (mem_sortLe.mp hb))

lemma insertLe_pairwise {α : Type} {le : α → α → Bool}
    (htot : ∀ a b, le a b = true ∨ le b a = true)
    (htrans : ∀ a b c, le a b = true → le b c = true → le a c = true)
    {a : α} {l : List α} (h : l.Pairwise (fun x y => le x y = true)) :
    (insertLe le a l).Pairwise (fun x y => le x y = true) := by
  induction l with
  | nil => simp [insertLe]
  | cons b t ih =>
    rcases List.pairwise_cons.mp h with ⟨hb, ht⟩
    simp only [insertLe]
    by_cases hab : le a b = true
    · rw [if_pos hab]
      refine List.pairwise_cons.mpr ⟨?_, h⟩
      intro x hx
      rcases List.mem_cons.mp hx with rfl | hmem
      · exact hab
      · exact htrans a b x hab (hb x hmem)
    · rw [if_neg hab]
      refine List.pairwise_cons.mpr ⟨?_, ih ht⟩
      intro x hx
      rcases mem_insertLe.mp hx with rfl | hmem
      · rcases htot x b with h1 | h1
        · exact absurd h1 hab
        · exact h1
      · exact hb x hmem

lemma sortLe_pairwise {α : Type} {le : α → α → Bool}
    (htot : ∀ a b, le a b = true ∨ le b a = true)
    (htrans : ∀ a b c, le a b = true → le b c = true → le a c = true)
    (l : List α) : (sortLe le l).Pairwise (fun x y => le x y = true) := by
  induction l with
  | nil => simp [sortLe]
  | cons a t ih =>
    simp only [sortLe]
    exact insertLe_pairwise htot htrans ih

lemma filter_all_pos {α : Type} {p : α → Bool} {l : List α}
    (h : ∀ x ∈ l, p x = true) : l.filter p = l := by
  induction l with
  | nil => rfl
  | cons a t ih =>
    rw [List.filter_cons_of_pos (h a (List.mem_cons_self a t)),
      ih (fun x hx => h x (List.mem_cons_of_mem _ hx))]

lemma filter_all_neg {α : Type} {p : α → Bool} {l : List α}
    (h : ∀ x ∈ l, p x = false) : l.filter p = [] := by
  induction l with
  | nil => rfl
  | cons a t ih =>
    rw [List.filter_cons_of_neg (by simp [h a (List.mem_cons_self a t)]),
      ih (fun x hx => h x (List.mem_cons_of_mem _ hx))]

lemma covAdd_keys {m : List (String × List String)} {k v : String}
    {q : String × List String} (h : q ∈ covAdd m k v) :
    q.1 = k ∨ ∃ q0 ∈ m, q.1 = q0.1 := by
  induction m with
  | nil =>
    unfold covAdd at h
    rcases List.mem_singleton.mp h with rfl
    exact Or.inl rfl
  | cons kv rest ih =>
    unfold covAdd at h
    by_cases hk : (kv.1 == k) = true
    · rw [if_pos hk] at h
      rcases List.mem_cons.mp h with rfl | hmem
      · exact Or.inl (beq_iff_eq.mp hk)
      · exact Or.inr ⟨q, List.mem_cons_of_mem _ hmem, rfl⟩
    · rw [if_neg hk] at h
      rcases List.mem_cons.mp h with rfl | hmem
      · exact Or.inr ⟨q, List.mem_cons_self _ _, rfl⟩
      · rcases ih hmem with h1 | ⟨q0, hq0, he⟩
        · exact Or.inl h1
        · exact Or.inr ⟨q0, List.mem_cons_of_mem _ hq0, he⟩

/-- All keys of the functional-tag coverage map are non-numeric. -/
def CovFunc (m : List (String × List String)) : Prop :=
  ∀ q ∈ m, isDigitStr q.1 = false

lemma covAdd_func {m : List (String × List String)} {k v : String}
    (hm : CovFunc m) (hk : isDigitStr k = false) : CovFunc (covAdd m k v) := by
  intro q hq
  rcases covAdd_keys hq with h1 | ⟨q0, hq0, he⟩
  · rw [h1]
    exact hk
  · rw [he]
    exact hm q0 hq0

lemma foldCovAdd_func {tn : String} {fts : List String}
    (hfts : ∀ ft ∈ fts, isDigitStr ft = false) :
    ∀ {m : List (String × List String)}, CovFunc m →
      CovFunc (fts.foldl (fun m ft => covAdd m ft tn) m) := by
  induction fts with
  | nil => intro m hm; simpa using hm
  | cons ft rest ih =>
    intro m hm
    simp only [List.foldl_cons]
    exact ih (fun x hx => hfts x (List.mem_cons_of_mem _ hx))
      (covAdd_func hm (hfts ft (List.mem_cons_self ft rest)))

lemma buildCov_func (tests : List TestInfo) : CovFunc (buildCov tests).cov := by
  unfold buildCov
  have : ∀ (l : List TestInfo) (st : CovMaps), CovFunc st.cov →
      CovFunc (l.foldl buildCovStep st).cov := by
    intro l
    induction l with
    | nil => intro st h; simpa using h
    | cons t ts ih =>
      intro st h
      simp only [List.foldl_cons]
      refine ih _ ?_
      unfold buildCovStep
      cases hext : extractTestNumber t.name with
      | none => exact h
      | some tn =>
        refine foldCovAdd_func ?_ h
        intro ft hft
        simpa using (List.mem_filter.mp hft).2
  refine this tests ⟨[], []⟩ ?_
  intro q hq
  cases hq

lemma mapSet_keys {m : List (String × List String)} {k : String}
    {v : List String} {q : String × List String} (h : q ∈ mapSet m k v) :
    q.1 = k ∨ ∃ q0 ∈ m, q.1 = q0.1 := by
  induction m with
  | nil =>
    unfold mapSet at h
    rcases List.mem_singleton.mp h with rfl
    exact Or.inl rfl
  | cons kv rest ih =>
    unfold mapSet at h
    by_cases hk : (kv.1 == k) = true
    · rw [if_pos hk] at h
      rcases List.mem_cons.mp h with rfl | hmem
      · exact Or.inl (beq_iff_eq.mp hk)
      · exact Or.inr ⟨q, List.mem_cons_of_mem _ hmem, rfl⟩
    · rw [if_neg hk] at h
      rcases List.mem_cons.mp h with rfl | hmem
      · exact Or.inr ⟨q, List.mem_cons_self _ _, rfl⟩
      · rcases ih hmem with h1 | ⟨q0, hq0, he⟩
        · exact Or.inl h1
        · exact Or.inr ⟨q0, List.mem_cons_of_mem _ hq0, he⟩

/-- All keys of the number map are digit strings. -/
def NumDigit (m : List (String × List String)) : Prop :=
  ∀ q ∈ m, isDigitStr q.1 = true

lemma buildCov_numDigit (tests : List TestInfo) :
    NumDigit (buildCov tests).numMap := by
  unfold buildCov
  have : ∀ (l : List TestInfo) (st : CovMaps), NumDigit st.numMap →
      NumDigit (l.foldl buildCovStep st).numMap := by
    intro l
    induction l with
    | nil => intro st h; simpa using h
    | cons t ts ih =>
      intro st h
      simp only [List.foldl_cons]
      refine ih _ ?_
      unfold buildCovStep
      cases hext : extractTestNumber t.name with
      | none => exact h
      | some tn =>
        intro q hq
        rcases mapSet_keys hq with h1 | ⟨q0, hq0, he⟩
        · rw [h1]
          exact extractTestNumber_digit hext
        · rw [he]
          exact h q0 hq0
  refine this tests ⟨[], []⟩ ?_
  intro q hq
  cases hq

lemma allTestNumbers_digit {tests : List TestInfo} {n : String}
    (h : n ∈ allTestNumbers tests) : isDigitStr n = true := by
  unfold allTestNumbers at h
  rcases List.mem_map.mp h with ⟨q, hq, rfl⟩
  exact buildCov_numDigit tests q hq

/-- C8: the grc optimizer agrees with the spec's description: (1) its
Jenkins output equals the spec-side assembly — accepted functional tags
sorted lexically, then numeric identifier tags sorted numerically, all
`@`-prefixed and joined with `||`; (2) functional tags are considered in
descending order of coverage size; (3) each accepted tag is a non-numeric
tag whose total coverage is at least `min_tests_per_tag`; (4) every
still-uncovered test number is represented in the output tag list by its
own numeric identifier tag; (5) the greedy acceptance rule is a
biconditional: at any state, considering a functional tag accepts it —
appends it to the accepted tags and marks all its covered test numbers as
covered — IF AND ONLY IF its total coverage is at least
`min_tests_per_tag` AND the subset of its covered test numbers not yet
covered is at least `min_tests_per_tag`; when either threshold fails, the
state is left completely unchanged. -/
theorem optimizer_spec_refinement (tests : List TestInfo) (minT : Nat) :
    optimizeTagsForJenkinsGrc tests minT = specOptimizerOutput tests minT ∧
    (sortedCoverage tests).Pairwise (fun a b => b.2.length ≤ a.2.length) ∧
    (∀ tg ∈ (greedyAccept minT (sortedCoverage tests)).accepted,
      isDigitStr tg = false ∧
      ∃ nums, (tg, nums) ∈ (buildCov tests).cov ∧ minT ≤ nums.length) ∧
    (∀ n ∈ allTestNumbers tests,
      n ∉ (greedyAccept minT (sortedCoverage tests)).covered →
      n ∈ optimizeTagList tests minT ∧ isDigitStr n = true) ∧
    (∀ (st : GreedySt) (p : String × List String),
      (greedyStep minT st p =
          ⟨st.accepted ++ [p.1], setUnion st.covered p.2⟩ ↔
        minT ≤ p.2.length ∧
          minT ≤ (p.2.filter (fun n => !(n ∈ st.covered : Bool))).length) ∧
      (¬ (minT ≤ p.2.length ∧
          minT ≤ (p.2.filter (fun n => !(n ∈ st.covered : Bool))).length) →
        greedyStep minT st p = st)) := by
  have haccF : ∀ tg ∈ (greedyAccept minT (sortedCoverage tests)).accepted,
      isDigitStr tg = false ∧
      ∃ nums, (tg, nums) ∈ (buildCov tests).cov ∧ minT ≤ nums.length := by
    intro tg h
    rcases greedy_accepted_sound (by simpa [greedyAccept] using h) with
      hbase | ⟨nums, hpair, hlen⟩
    · cases hbase
    · have hmem := mem_sortLe.mp hpair
      exact ⟨buildCov_func tests _ hmem, nums, hmem, hlen⟩
  refine ⟨?_, ?_, haccF, ?_, ?_⟩
  · have hAfun : ∀ x ∈ (greedyAccept minT (sortedCoverage tests)).accepted,
        isDigitStr x = false := fun x hx => (haccF x hx).1
    have hUdig : ∀ n ∈ (allTestNumbers tests).filter
        (fun n => !(n ∈ (greedyAccept minT (sortedCoverage tests)).covered : Bool)),
        isDigitStr n = true :=
      fun n hn => allTestNumbers_digit (List.mem_filter.mp hn).1
    have hol : optimizeTagList tests minT =
        (greedyAccept minT (sortedCoverage tests)).accepted ++
        (allTestNumbers tests).filter
          (fun n => !(n ∈ (greedyAccept minT (sortedCoverage tests)).covered : Bool)) :=
      rfl
    have e1 : ((greedyAccept minT (sortedCoverage tests)).accepted).filter
        (fun t => !isDigitStr t) =
        (greedyAccept minT (sortedCoverage tests)).accepted :=
      filter_all_pos (fun x hx => by rw [hAfun x hx]; rfl)
    have e2 : ((allTestNumbers tests).filter
        (fun n => !(n ∈ (greedyAccept minT (sortedCoverage tests)).covered : Bool))).filter
        (fun t => !isDigitStr t) = [] :=
      filter_all_neg (fun x hx => by rw [hUdig x hx]; rfl)
    have e3 : ((greedyAccept minT (sortedCoverage tests)).accepted).filter
        (fun t => isDigitStr t) = [] :=
      filter_all_neg (fun x hx => hAfun x hx)
    have e4 : ((allTestNumbers tests).filter
        (fun n => !(n ∈ (greedyAccept minT (sortedCoverage tests)).covered : Bool))).filter
        (fun t => isDigitStr t) =
        (allTestNumbers tests).filter
          (fun n => !(n ∈ (greedyAccept minT (sortedCoverage tests)).covered : Bool)) :=
      filter_all_pos (fun x hx => hUdig x hx)
    have hsorteq : sortLe mixedKeyLe (optimizeTagList tests minT) =
        sortLe strLe ((optimizeTagList tests minT).filter (fun t => !isDigitStr t)) ++
        sortLe numericLe ((optimizeTagList tests minT).filter (fun t => isDigitStr t)) := by
      rw [hol, List.filter_append, List.filter_append, e1, e2, e3, e4,
        List.append_nil, List.nil_append]
      exact sort_mixed_decompose hAfun hUdig
    cases tests with
    | nil => rfl
    | cons t ts =>
      unfold optimizeTagsForJenkinsGrc specOptimizerOutput
      rw [if_neg (by simp)]
      rw [hsorteq, List.map_append]
  · have htot : ∀ a b : String × List String,
        covDescLe a b = true ∨ covDescLe b a = true := by
      intro a b
      unfold covDescLe
      rcases Nat.le_total b.2.length a.2.length with h | h
      · exact Or.inl (by simpa using h)
      · exact Or.inr (by simpa using h)
    have htrans : ∀ a b c : String × List String, covDescLe a b = true →
        covDescLe b c = true → covDescLe a c = true := by
      intro a b c h1 h2
      unfold covDescLe at h1 h2 ⊢
      simp only [decide_eq_true_eq] at h1 h2 ⊢
      omega
    have hpw := sortLe_pairwise htot htrans (buildCov tests).cov
    refine hpw.imp ?_
    intro a b h
    unfold covDescLe at h
    simpa using h
  · intro n hn hncov
    refine ⟨?_, allTestNumbers_digit hn⟩
    unfold optimizeTagList
    refine List.mem_append.mpr (Or.inr ?_)
    refine List.mem_filter.mpr ⟨hn, ?_⟩
    simpa using hncov
  · intro st p
    have hreject : ¬ (minT ≤ p.2.length ∧
        minT ≤ (p.2.filter (fun n => !(n ∈ st.covered : Bool))).length) →
        greedyStep minT st p = st := by
      intro hcond
      unfold greedyStep
      by_cases h1 : minT ≤ p.2.length
      · rw [if_pos h1]
        by_cases h2 : minT ≤
            (p.2.filter (fun n => !(n ∈ st.covered : Bool))).length
        · exact absurd ⟨h1, h2⟩ hcond
        · rw [if_neg h2]
      · rw [if_neg h1]
    refine ⟨⟨?_, ?_⟩, hreject⟩
    · intro heq
      by_contra hcond
      rw [hreject hcond] at heq
      have hfield : st.accepted = st.accepted ++ [p.1] :=
        congrArg GreedySt.accepted heq
      have hlen := congrArg List.length hfield
      simp at hlen
    · rintro ⟨h1, h2⟩
      unfold greedyStep
      rw [if_pos h1, if_pos h2]

/-- C10: an empty changed-file list is not classified docs-only (the
predicate is not vacuously true) and proceeds through rule evaluation,
producing an empty tag set with `isCritical = false` and
`isDocsOnly = false`. -/
theorem empty_change_not_docs_only
    (search : String → String → Bool) (rules : RuleSet) :
    isDocsOnlyChange [] = false ∧
    mapFilesToTags search rules [] = ⟨[], false, false⟩ := by
  constructor
  · rfl
  · rfl

end ACMQE
